import Mathlib

/-!
Verification of the `meta_p2` pipeline (`src/cmd/meta_p2/main.go`).

The Go source is shallowly embedded below.  Go `int` becomes `ℤ` (positions,
qualities, thresholds), Go `float64` observation values become `Option ℚ`
(`none` models the NaN missing-value sentinel, `some q` a finite value),
byte strings become `List Char` / `List ℕ`, and every Go operation that can
panic (index or slice out of bounds) is embedded as an `Option`-returning
function where `none` models the panic.  The globals `MINBQ` (min base
quality) are passed as explicit arguments.
-/

namespace MetaP2

/-- MappedRead contains the section of a read mapped to a reference genome
(source: `MappedRead` struct, main.go). -/
structure MappedRead where
  Pos : ℤ
  Seq : List Char
  Qual : List ℕ
deriving Repr, DecidableEq, Inhabited

/-- Len returns the length of a sequence (source: `func (m MappedRead) Len() int`). -/
def MappedRead.Len (m : MappedRead) : ℤ := (m.Seq.length : ℤ)

/-- SubProfile: substitution/mutation profile (source: `SubProfile` struct).
`Profile` entries are `none` for the NaN missing sentinel, `some q` otherwise. -/
structure SubProfile where
  Pos : ℤ
  Profile : List (Option ℚ)
deriving Repr, DecidableEq

/-- Genetic code table (external collaborator `taxonomy.GeneticCode`): a finite
map from codon strings to amino-acid symbols, embedded as an association list. -/
structure GeneticCode where
  Table : List (String × String)
deriving Repr, DecidableEq

/-- Presence lookup in the table: `some aa` when the codon is present. -/
def GeneticCode.lookup? (t : GeneticCode) (c : String) : Option String :=
  (t.Table.find? (fun p => p.1 == c)).map Prod.snd

/-- Go map indexing `codeTable.Table[codon]`: yields the zero value `""` when
the codon is absent (Go map semantics for a missing key). -/
def GeneticCode.lookupGo (t : GeneticCode) (c : String) : String :=
  (t.lookup? c).getD ""

/-- isATGC (source: `func isATGC(b byte) bool`). -/
def isATGC (c : Char) : Bool :=
  if c = 'A' then true
  else if c = 'T' then true
  else if c = 'C' then true
  else if c = 'G' then true
  else false

/-- Go index expression `l[i]` on a slice, with an `Int` index: `none` models
the bounds panic (`i < 0` or `i ≥ len(l)`). -/
def idx? {α : Type} (l : List α) (i : ℤ) : Option α :=
  if 0 ≤ i then l.get? i.toNat else none

/-- Go slice expression `l[lo:hi]`: `none` models the bounds panic
(needs `0 ≤ lo ≤ hi ≤ len(l)`). -/
def slice? {α : Type} (l : List α) (lo hi : ℤ) : Option (List α) :=
  if 0 ≤ lo ∧ lo ≤ hi ∧ hi ≤ (l.length : ℤ) then
    some ((l.take hi.toNat).drop lo.toNat)
  else none

/-- One iteration body of the loop of `compareMappedReads` at an evaluated
offset `j` in `b`'s coordinates: the value `d` appended to the profile
(`none` = NaN missing), or outer `none` when a Go index/slice access panics.
The nesting and short-circuit order follow the source exactly:
`a.Seq[i]` and `b.Seq[j]` (short-circuit `&&`), then `a.Qual[i]`,
`b.Qual[j]` (short-circuit), then the two codon slices and the table lookups. -/
def obsAt (a b : MappedRead) (codeTable : GeneticCode) (minbq : ℤ) (j : ℕ) :
    Option (Option ℚ) :=
  let lag : ℤ := b.Pos - a.Pos
  let i : ℤ := (j : ℤ) + lag
  match idx? a.Seq i with
  | none => none
  | some ca =>
    if ¬ isATGC ca then some none
    else
      match idx? b.Seq (j : ℤ) with
      | none => none
      | some cb =>
        if ¬ isATGC cb then some none
        else
          match idx? a.Qual i with
          | none => none
          | some qa =>
            if ¬ (minbq < (qa : ℤ)) then some none
            else
              match idx? b.Qual (j : ℤ) with
              | none => none
              | some qb =>
                if ¬ (minbq < (qb : ℤ)) then some none
                else
                  match slice? a.Seq (i - 2) (i + 1),
                        slice? b.Seq ((j : ℤ) - 2) ((j : ℤ) + 1) with
                  | some codonA, some codonB =>
                    if codeTable.lookupGo (String.mk codonA)
                        = codeTable.lookupGo (String.mk codonB) then
                      some (some (if ca ≠ cb then 1 else 0))
                    else some none
                  | _, _ => none

/-- Number of iterations of the `compareMappedReads` loop
(`for j := 0; j < a.Len()-lag && j < b.Len(); j++`). -/
def evalLimit (a b : MappedRead) : ℕ :=
  (min (a.Len - (b.Pos - a.Pos)) b.Len).toNat

/-- The guard selecting evaluated offsets
(source: `if (pos+1)%3 == 0 && j > 1` with `pos := j + b.Pos`;
Go `%` on `int` is truncated division remainder, i.e. `Int.tmod`). -/
def evalGuard (b : MappedRead) (j : ℕ) : Bool :=
  (((j : ℤ) + b.Pos + 1).tmod 3 == 0) && decide (1 < j)

/-- The evaluated offsets of the loop of `compareMappedReads`, in loop order. -/
def evalOffsets (a b : MappedRead) : List ℕ :=
  (List.range (evalLimit a b)).filter (evalGuard b)

/-- Reference positions of the evaluated offsets (`pos := j + b.Pos`). -/
def evalPositions (a b : MappedRead) : List ℤ :=
  (evalOffsets a b).map (fun j : ℕ => (j : ℤ) + b.Pos)

/-- Option-valued `mapM` over a list, written out so its equations are
directly usable in proofs. -/
def optMapM {α β : Type} (f : α → Option β) : List α → Option (List β)
  | [] => some []
  | x :: xs =>
    match f x, optMapM f xs with
    | some y, some ys => some (y :: ys)
    | _, _ => none

/-- compareMappedReads compares two MappedReads in their overlapped part and
returns a substitution profile (source: `func compareMappedReads`); `none`
models a Go panic from an out-of-bounds access inside the loop. -/
def compareMappedReads (a b : MappedRead) (codeTable : GeneticCode) (minbq : ℤ) :
    Option SubProfile :=
  (optMapM (obsAt a b codeTable minbq) (evalOffsets a b)).map
    (fun subs => { Pos := b.Pos, Profile := subs })

/-- The window-sliding loop of `slideReads` (source: `func slideReads`), on the
stream of `MappedRead`s that passed the mapping-quality filter. State `w` is
`mappedReadArr`; each emitted list is one value sent on `mappedReadArrChan`.
The source's `if len(mappedReadArr) > 0` is always true right after the
`append`, so it is elided; `headI` is the source's `mappedReadArr[0]`. -/
def slideGo : List MappedRead → List MappedRead → List (List MappedRead)
  | _, [] => []
  | w, r :: rs =>
    let w' := w ++ [r]
    let a := w'.headI
    if a.Pos + a.Len < r.Pos then w' :: slideGo w'.tail rs
    else slideGo w' rs

/-- All windows emitted by `slideReads` for one batch of reads. -/
def slideWindows (reads : List MappedRead) : List (List MappedRead) :=
  slideGo [] reads

/-- The pairs compared by `compare` (source: `func compare`) for one emitted
window: anchor `a := reads[0]` against `reads[j]`, `j ≥ 1`, breaking at the
first `b` with `b.Pos > a.Len()+a.Pos`.  An empty window would panic at
`reads[0]`; `slideGo` only emits non-empty windows. -/
def pairsOfWindow (w : List MappedRead) : List (MappedRead × MappedRead) :=
  match w with
  | [] => []
  | a :: rest =>
    (rest.takeWhile (fun b => decide (b.Pos ≤ a.Len + a.Pos))).map (fun b => (a, b))

/-- All read pairs handed to `compareMappedReads` for one batch:
the Window Pairer's emitted pairs. -/
def emittedPairs (reads : List MappedRead) : List (MappedRead × MappedRead) :=
  (slideWindows reads).map pairsOfWindow |>.flatten

/-- Modelled from the spec: the external `correlation.BivariateCovariance`
accumulator of the gomath library (not under `src/`), per §3 of the spec:
state `{n, meanX, meanY, coMoment}`, standard Welford-style online update,
covariance derived as `coMoment / n`, undefined (NaN) when `n == 0`
(the source constructs it with `biasCorrected = false`). -/
structure BivCov where
  n : ℕ
  meanX : ℚ
  meanY : ℚ
  c : ℚ
deriving Repr, DecidableEq

instance : Inhabited BivCov := ⟨⟨0, 0, 0, 0⟩⟩

/-- Modelled from the spec: `NewBivariateCovariance(false)` — fresh state. -/
def BivCov.new : BivCov := ⟨0, 0, 0, 0⟩

/-- Modelled from the spec: `Increment(x, y)` — Welford-style online update. -/
def BivCov.increment (cv : BivCov) (x y : ℚ) : BivCov :=
  let n' : ℕ := cv.n + 1
  let dx := x - cv.meanX
  let meanX' := cv.meanX + dx / (n' : ℚ)
  let meanY' := cv.meanY + (y - cv.meanY) / (n' : ℚ)
  { n := n', meanX := meanX', meanY := meanY', c := cv.c + dx * (y - meanY') }

/-- Modelled from the spec: `GetResult()` — `coMoment / n`, NaN (here `none`)
exactly when `n == 0`. -/
def BivCov.getResult (cv : BivCov) : Option ℚ :=
  if cv.n = 0 then none else some (cv.c / (cv.n : ℚ))

/-- One iteration of the inner loop of `calc` (source: `for j := i; ...`),
re-indexed by `l := j - i`: `covs[l].Increment(x, y)` when `Profile[i+l]`
is non-NaN, identity otherwise (the caller only passes `l < len(cvs)`). -/
def calcUpd (sp : SubProfile) (x : ℚ) (i : ℕ) (cvs : List BivCov) (l : ℕ) :
    List BivCov :=
  match sp.Profile[i + l]? with
  | some (some y) => cvs.set l ((cvs.getD l default).increment x y)
  | _ => cvs

/-- Inner loop of `calc` (source: `for j := i; ...` in `func calc`) for a fixed
outer index `i` whose value is the non-missing `x`; re-indexed by
`l := j - i`, which ranges over `[0, min(len(Profile)-i, len(covs)))`
(the source breaks as soon as `l >= len(covs)`). -/
def calcInner (sp : SubProfile) (x : ℚ) (i : ℕ) (covs : List BivCov) : List BivCov :=
  (List.range (min (sp.Profile.length - i) covs.length)).foldl (calcUpd sp x i) covs

/-- One iteration of the outer loop of `calc`: run the inner loop when
`Profile[i]` is non-NaN, skip otherwise. -/
def calcOuterUpd (sp : SubProfile) (cvs : List BivCov) (i : ℕ) : List BivCov :=
  match sp.Profile[i]? with
  | some (some x) => calcInner sp x i cvs
  | _ => cvs

/-- Outer loop of `calc` over one profile (`for i := 0; i < len(...); i++`). -/
def calcStep (covs : List BivCov) (sp : SubProfile) : List BivCov :=
  (List.range sp.Profile.length).foldl (calcOuterUpd sp) covs

/-- calc (source: `func calc`): consumes the profiles of one batch into
`maxl` lag buckets (`covs` is built by appending `maxl` fresh accumulators). -/
def calcCovs (profiles : List SubProfile) (maxl : ℕ) : List BivCov :=
  profiles.foldl calcStep (List.replicate maxl BivCov.new)

/-- Modelled from the spec: the external `meanvar.MeanVar` accumulator of the
gomath library (not under `src/`), per §3 of the spec: the same Welford-style
online update pattern, over the scalar per-batch covariance results. -/
structure MeanVar where
  n : ℕ
  mean : ℚ
  m2 : ℚ
deriving Repr, DecidableEq

/-- Modelled from the spec: `meanvar.New()` — fresh state. -/
def MeanVar.init : MeanVar := ⟨0, 0, 0⟩

/-- Modelled from the spec: `Increment(x)` — Welford online mean/variance update. -/
def MeanVar.increment (mv : MeanVar) (x : ℚ) : MeanVar :=
  let n' : ℕ := mv.n + 1
  let d := x - mv.mean
  let mean' := mv.mean + d / (n' : ℚ)
  { n := n', mean := mean', m2 := mv.m2 + d * (x - mean') }

/-- Modelled from the spec: `Mean.GetResult()` — NaN (`none`) when `n == 0`. -/
def MeanVar.meanRes (mv : MeanVar) : Option ℚ :=
  if mv.n = 0 then none else some mv.mean

/-- Modelled from the spec: `Var.GetResult()` — sample variance
`m2 / (n - 1)`, NaN (`none`) when `n == 0` (for `n = 1` this is `0`,
since `ℚ` division by zero is zero). -/
def MeanVar.varRes (mv : MeanVar) : Option ℚ :=
  if mv.n = 0 then none else some (mv.m2 / ((mv.n : ℚ) - 1))

/-- Body of the `for covs := range covsChan` loop of `collect`
(source: `func collect`): `meanVars[i].Increment(v)` for each non-NaN
`v := covs[i].GetResult()`.  Structural zip; when `covs` is longer than
`meanVars` the excess indices would panic in Go (`meanVars[i]`), a case the
theorems exclude by hypothesis. -/
def collectBatch : List MeanVar → List BivCov → List MeanVar
  | mvs, [] => mvs
  | [], _ :: _ => []
  | mv :: mvs, cv :: cvs =>
    (match cv.getResult with
     | some v => mv.increment v
     | none => mv) :: collectBatch mvs cvs

/-- collect (source: `func collect`): folds every delivered batch result into
the `maxl` cross-batch `MeanVar` accumulators. -/
def collect (batches : List (List BivCov)) (maxl : ℕ) : List MeanVar :=
  batches.foldl collectBatch (List.replicate maxl MeanVar.init)

/-- The per-lag scalar values folded into `meanVars[i]` by `collect`, in
delivery order: `covs[i].GetResult()` of each batch, NaN results skipped. -/
def valuesAt (i : ℕ) (batches : List (List BivCov)) : List ℚ :=
  batches.filterMap (fun covs => (covs[i]?).bind BivCov.getResult)

/-- One output row of `write` (source: `func write`); the CSV formatting and
the constant last column `"all"` are elided. -/
structure OutRow where
  l : ℕ
  m : Option ℚ
  v : Option ℚ
  n : ℕ
  t : String
deriving Repr, DecidableEq

/-- Go float division lifted to the NaN model: NaN when either operand is NaN. -/
def divOpt (x y : Option ℚ) : Option ℚ :=
  match x, y with
  | some a, some b => some (a / b)
  | _, _ => none

/-- The loop of `write` (source: `for i := 0; i < len(meanVars); i++`),
carrying the loop index and the running `ks` variable (a float, initially
`0.0`, assigned the lag-0 mean at `i == 0`). -/
def writeGo : ℕ → Option ℚ → List MeanVar → List OutRow
  | _, _, [] => []
  | i, ks, mv :: rest =>
    if i = 0 then
      { l := i, m := mv.meanRes, v := mv.varRes, n := mv.n, t := "Ks" }
        :: writeGo (i + 1) mv.meanRes rest
    else
      { l := i, m := divOpt mv.meanRes ks, v := mv.varRes, n := mv.n, t := "P2" }
        :: writeGo (i + 1) ks rest

/-- write (source: `func write`): the rows written after the header line. -/
def writeRows (meanVars : List MeanVar) : List OutRow :=
  writeGo 0 (some 0) meanVars

/-- CIGAR operation types of the alignment records (external `sam` package). -/
inductive CigarType where
  | cigarMatch
  | cigarMismatch
  | cigarEqual
  | cigarInsertion
  | cigarSoftClipped
  | cigarHardClipped
  | cigarDeletion
  | cigarSkipped
deriving Repr, DecidableEq

/-- One CIGAR operation: its type and length. -/
structure CigarOp where
  ty : CigarType
  len : ℕ
deriving Repr, DecidableEq

/-- The part of a `sam.Record` that `Map2Ref` consumes: the expanded read
sequence (`r.Seq.Expand()`), the per-base qualities (`r.Qual`) and the
CIGAR operation list. -/
structure SamRec where
  Pos : ℤ
  Cigar : List CigarOp
  Seq : List Char
  Qual : List ℕ
deriving Repr, DecidableEq

/-- Go slice segment `l[p : p+n]` as a total function (bounds handled by the
caller). -/
def seg {α : Type} (l : List α) (p n : ℕ) : List α :=
  (l.drop p).take n

/-- The loop of `Map2Ref` (source: `func Map2Ref`), carrying the read cursor
`p`; `none` models the Go slice panic `read[p:p+c.Len()]` (or
`qual[p:p+c.Len()]`) when `p + c.Len()` exceeds the slice length. -/
def map2RefGo (read : List Char) (qual : List ℕ) :
    ℕ → List CigarOp → Option (List Char × List ℕ)
  | _, [] => some ([], [])
  | p, c :: cs =>
    match c.ty with
    | .cigarMatch | .cigarMismatch | .cigarEqual =>
      if p + c.len ≤ read.length ∧ p + c.len ≤ qual.length then
        (map2RefGo read qual (p + c.len) cs).map
          (fun sq => (seg read p c.len ++ sq.1, seg qual p c.len ++ sq.2))
      else none
    | .cigarInsertion | .cigarSoftClipped | .cigarHardClipped =>
      map2RefGo read qual (p + c.len) cs
    | .cigarDeletion | .cigarSkipped =>
      (map2RefGo read qual p cs).map
        (fun sq => (List.replicate c.len '*' ++ sq.1,
                    List.replicate c.len (0 : ℕ) ++ sq.2))

/-- Map2Ref obtains a read mapping to the reference genome
(source: `func Map2Ref`): run the CIGAR loop from `p = 0`, then uppercase
the emitted bases (`bytes.ToUpper`). -/
def Map2Ref (r : SamRec) : Option (List Char × List ℕ) :=
  (map2RefGo r.Seq r.Qual 0 r.Cigar).map (fun sq => (sq.1.map Char.toUpper, sq.2))

/-- Whether a CIGAR operation type consumes read bases, following the spec's
§4.1 classification: match/mismatch/equal and insertion/clip operations
consume read bases; deletion/skip do not. -/
def readConsume : CigarType → Bool
  | .cigarDeletion | .cigarSkipped => false
  | _ => true

/-- The bases one operation emits, per the spec's §4.1 wording: copy the read
segment verbatim for match/mismatch/equal, nothing for insertion/clips, one
placeholder base per reference position for deletion/skip. -/
def opBases (read : List Char) (off : ℕ) (c : CigarOp) : List Char :=
  match c.ty with
  | .cigarMatch | .cigarMismatch | .cigarEqual => seg read off c.len
  | .cigarInsertion | .cigarSoftClipped | .cigarHardClipped => []
  | .cigarDeletion | .cigarSkipped => List.replicate c.len '*'

/-- The qualities one operation emits (zero sentinel for deletion/skip). -/
def opQuals (qual : List ℕ) (off : ℕ) (c : CigarOp) : List ℕ :=
  match c.ty with
  | .cigarMatch | .cigarMismatch | .cigarEqual => seg qual off c.len
  | .cigarInsertion | .cigarSoftClipped | .cigarHardClipped => []
  | .cigarDeletion | .cigarSkipped => List.replicate c.len (0 : ℕ)

/-- Each operation paired with its read offset — the number of read bases
consumed by the preceding operations. -/
def opsWithOffsets : ℕ → List CigarOp → List (ℕ × CigarOp)
  | _, [] => []
  | p, c :: cs =>
    (p, c) :: opsWithOffsets (p + (if readConsume c.ty then c.len else 0)) cs

/-- Spec-side description of the emitted bases: concatenation, over the
operations with their read offsets, of each operation's emission. -/
def emittedBases (read : List Char) (cigar : List CigarOp) : List Char :=
  ((opsWithOffsets 0 cigar).map (fun pc => opBases read pc.1 pc.2)).flatten

/-- Spec-side description of the emitted qualities. -/
def emittedQuals (qual : List ℕ) (cigar : List CigarOp) : List ℕ :=
  ((opsWithOffsets 0 cigar).map (fun pc => opQuals qual pc.1 pc.2)).flatten

/-- The base of a read at reference offset `i` (total version of `m.Seq[i]`;
used only where `0 ≤ i < |Seq|` is known). -/
def seqAt (m : MappedRead) (i : ℤ) : Char :=
  m.Seq.getD i.toNat '?'

/-- The quality of a read at reference offset `i` (total version of
`m.Qual[i]`). -/
def qualAt (m : MappedRead) (i : ℤ) : ℕ :=
  m.Qual.getD i.toNat 0

/-- The 3-base codon ending at offset `i` of a read: `m.Seq[i-2 : i+1]`. -/
def codonAt (m : MappedRead) (i : ℤ) : String :=
  String.mk ((m.Seq.take (i + 1).toNat).drop (i - 2).toNat)

theorem optMapM_length {α β : Type} (f : α → Option β) :
    ∀ {xs : List α} {ys : List β}, optMapM f xs = some ys → ys.length = xs.length := by
  intro xs
  induction xs with
  | nil => intro ys h; simp [optMapM] at h; simp [← h]
  | cons x xs ih =>
    intro ys h
    simp only [optMapM] at h
    cases hx : f x with
    | none => rw [hx] at h; simp at h
    | some y =>
      rw [hx] at h
      cases hr : optMapM f xs with
      | none => rw [hr] at h; simp at h
      | some ys' =>
        rw [hr] at h
        simp only [Option.some.injEq] at h
        subst h
        simp [ih hr]

theorem optMapM_getElem? {α β : Type} (f : α → Option β) :
    ∀ {xs : List α} {ys : List β}, optMapM f xs = some ys →
      ∀ k : ℕ, ys[k]? = (xs[k]?).bind f := by
  intro xs
  induction xs with
  | nil =>
    intro ys h k
    simp only [optMapM, Option.some.injEq] at h
    subst h
    simp
  | cons x xs ih =>
    intro ys h k
    simp only [optMapM] at h
    cases hx : f x with
    | none => rw [hx] at h; simp at h
    | some y =>
      rw [hx] at h
      cases hr : optMapM f xs with
      | none => rw [hr] at h; simp at h
      | some ys' =>
        rw [hr] at h
        simp only [Option.some.injEq] at h
        subst h
        cases k with
        | zero => simp [hx]
        | succ k => simp [ih hr k]

theorem optMapM_isSome {α β : Type} (f : α → Option β) :
    ∀ {xs : List α}, (∀ x ∈ xs, (f x).isSome) → (optMapM f xs).isSome := by
  intro xs
  induction xs with
  | nil => intro _; simp [optMapM]
  | cons x xs ih =>
    intro h
    have hx : (f x).isSome := h x (by simp)
    have hxs : (optMapM f xs).isSome := ih (fun y hy => h y (by simp [hy]))
    obtain ⟨y, hy⟩ := Option.isSome_iff_exists.mp hx
    obtain ⟨ys, hys⟩ := Option.isSome_iff_exists.mp hxs
    simp [optMapM, hy, hys]

/-- Characterization of one loop iteration of `compareMappedReads` when every
Go access it can make is in bounds: the appended value is non-missing exactly
when both bases are canonical, both qualities exceed the minimum, and the two
codon lookups (Go map semantics, `""` for an absent codon) agree; it is then
`1` for differing bases and `0` for equal ones. -/
theorem obsAt_characterization (a b : MappedRead) (tbl : GeneticCode) (minbq : ℤ)
    (j : ℕ)
    (h2 : 2 ≤ (j : ℤ) + (b.Pos - a.Pos))
    (hia : (j : ℤ) + (b.Pos - a.Pos) < (a.Seq.length : ℤ))
    (hja : 2 ≤ j)
    (hjb : (j : ℤ) < (b.Seq.length : ℤ))
    (hqa : (j : ℤ) + (b.Pos - a.Pos) < (a.Qual.length : ℤ))
    (hqb : (j : ℤ) < (b.Qual.length : ℤ)) :
    obsAt a b tbl minbq j =
      some (if isATGC (seqAt a ((j : ℤ) + (b.Pos - a.Pos))) = true
               ∧ isATGC (seqAt b (j : ℤ)) = true
               ∧ minbq < (qualAt a ((j : ℤ) + (b.Pos - a.Pos)) : ℤ)
               ∧ minbq < (qualAt b (j : ℤ) : ℤ)
               ∧ tbl.lookupGo (codonAt a ((j : ℤ) + (b.Pos - a.Pos)))
                   = tbl.lookupGo (codonAt b (j : ℤ))
            then some (if seqAt a ((j : ℤ) + (b.Pos - a.Pos)) ≠ seqAt b (j : ℤ)
                       then 1 else 0)
            else none) := by
  set i : ℤ := (j : ℤ) + (b.Pos - a.Pos) with hi
  have h0i : 0 ≤ i := by omega
  have hiaN : i.toNat < a.Seq.length := by omega
  have hjbN : j < b.Seq.length := by omega
  have hqaN : i.toNat < a.Qual.length := by omega
  have hqbN : j < b.Qual.length := by omega
  have e1 : idx? a.Seq i = some (seqAt a i) := by
    simp [idx?, h0i, seqAt, List.getElem?_eq_getElem hiaN, List.getD_eq_getElem?_getD,
      List.getElem?_eq_getElem hiaN]
  have e2 : idx? b.Seq (j : ℤ) = some (seqAt b (j : ℤ)) := by
    simp [idx?, seqAt, List.getD_eq_getElem?_getD, List.getElem?_eq_getElem hjbN]
  have e3 : idx? a.Qual i = some (qualAt a i) := by
    simp [idx?, h0i, qualAt, List.getD_eq_getElem?_getD, List.getElem?_eq_getElem hqaN]
  have e4 : idx? b.Qual (j : ℤ) = some (qualAt b (j : ℤ)) := by
    simp [idx?, qualAt, List.getD_eq_getElem?_getD, List.getElem?_eq_getElem hqbN]
  have e5 : slice? a.Seq (i - 2) (i + 1)
      = some ((a.Seq.take (i + 1).toNat).drop (i - 2).toNat) := by
    have hc : 0 ≤ i - 2 ∧ i - 2 ≤ i + 1 ∧ i + 1 ≤ (a.Seq.length : ℤ) :=
      ⟨by omega, by omega, by omega⟩
    simp [slice?, hc]
  have e6 : slice? b.Seq ((j : ℤ) - 2) ((j : ℤ) + 1)
      = some ((b.Seq.take ((j : ℤ) + 1).toNat).drop ((j : ℤ) - 2).toNat) := by
    have hc : 0 ≤ (j : ℤ) - 2 ∧ (j : ℤ) - 2 ≤ (j : ℤ) + 1
        ∧ (j : ℤ) + 1 ≤ (b.Seq.length : ℤ) := ⟨by omega, by omega, by omega⟩
    simp [slice?, hc]
  rw [obsAt]
  simp only [← hi, e1, e2, e3, e4, e5, e6]
  by_cases c1 : isATGC (seqAt a i) = true
  · by_cases c2 : isATGC (seqAt b (j : ℤ)) = true
    · by_cases c3 : minbq < (qualAt a i : ℤ)
      · by_cases c4 : minbq < (qualAt b (j : ℤ) : ℤ)
        · by_cases c5 : tbl.lookupGo (codonAt a i) = tbl.lookupGo (codonAt b (j : ℤ))
          · simp [c1, c2, c3, c4, codonAt] at c5 ⊢
            simp [c5]
          · simp [c1, c2, c3, c4, codonAt] at c5 ⊢
            simp [c5]
        · simp [c1, c2, c3, c4]
      · simp [c1, c2, c3]
    · simp [c1, c2]
  · simp [c1]

theorem mem_evalOffsets {a b : MappedRead} {j : ℕ} :
    j ∈ evalOffsets a b ↔
      ((j : ℤ) + (b.Pos - a.Pos) < a.Len ∧ (j : ℤ) < b.Len
        ∧ ((j : ℤ) + b.Pos + 1).tmod 3 = 0 ∧ 1 < j) := by
  simp only [evalOffsets, List.mem_filter, List.mem_range, evalLimit, evalGuard,
    MappedRead.Len, Bool.and_eq_true, beq_iff_eq, decide_eq_true_eq]
  constructor
  · rintro ⟨hlt, htm, hj⟩
    exact ⟨by omega, by omega, htm, hj⟩
  · rintro ⟨hl1, hl2, htm, hj⟩
    exact ⟨by omega, htm, hj⟩

theorem obsAt_isSome_of (a b : MappedRead) (tbl : GeneticCode) (minbq : ℤ) (j : ℕ)
    (hab : a.Pos ≤ b.Pos) (ha : a.Seq.length = a.Qual.length)
    (hb : b.Seq.length = b.Qual.length) (hj : j ∈ evalOffsets a b) :
    (obsAt a b tbl minbq j).isSome := by
  obtain ⟨h1, h2, _, hj1⟩ := mem_evalOffsets.mp hj
  simp only [MappedRead.Len] at h1 h2
  rw [obsAt_characterization a b tbl minbq j (by omega) (by omega) (by omega)
    (by omega) (by omega) (by omega)]
  simp

/-- C10: under the sortedness precondition `a.Pos ≤ b.Pos` and the
`|Seq| = |Qual|` invariant for both reads, every access performed by the
`compareMappedReads` loop is in bounds (it returns `some` rather than the
`none` that models a Go panic); and the second conjunct shows the
precondition is needed: a pair with `b.Pos < a.Pos` (unsorted stream) makes
the loop read `a.Seq[-1]` and panic. -/
theorem C10_in_bounds (a b : MappedRead) (tbl : GeneticCode) (minbq : ℤ)
    (hab : a.Pos ≤ b.Pos) (ha : a.Seq.length = a.Qual.length)
    (hb : b.Seq.length = b.Qual.length) :
    (compareMappedReads a b tbl minbq).isSome
    ∧ compareMappedReads ⟨3, ['A', 'A', 'A', 'A'], [40, 40, 40, 40]⟩
        ⟨0, ['A', 'A', 'A', 'A', 'A', 'A'], [40, 40, 40, 40, 40, 40]⟩
        ⟨[("AAA", "K")]⟩ 13 = none := by
  constructor
  · rw [compareMappedReads]
    have hs := optMapM_isSome (obsAt a b tbl minbq)
      (fun j hj => obsAt_isSome_of a b tbl minbq j hab ha hb hj)
    obtain ⟨ys, hys⟩ := Option.isSome_iff_exists.mp hs
    simp [hys]
  · decide

/-- C10 witness: the theorem instantiated at a concrete sorted pair. -/
theorem C10_in_bounds_witness :
    (compareMappedReads ⟨0, ['A', 'A', 'A'], [40, 40, 40]⟩
        ⟨0, ['A', 'A', 'A'], [40, 40, 40]⟩ ⟨[("AAA", "K")]⟩ 13).isSome
    ∧ compareMappedReads ⟨3, ['A', 'A', 'A', 'A'], [40, 40, 40, 40]⟩
        ⟨0, ['A', 'A', 'A', 'A', 'A', 'A'], [40, 40, 40, 40, 40, 40]⟩
        ⟨[("AAA", "K")]⟩ 13 = none :=
  C10_in_bounds ⟨0, ['A', 'A', 'A'], [40, 40, 40]⟩ ⟨0, ['A', 'A', 'A'], [40, 40, 40]⟩
    ⟨[("AAA", "K")]⟩ 13 (by decide) (by decide) (by decide)

/-- C5 counterexample: at an evaluated position where the two codons are both
absent from the genetic-code table (here because of a `*` placeholder base in
the codon), neither codon encodes any amino acid — yet the code records the
observation `1` (their Go map lookups both yield the zero value `""`, which
compare equal), instead of the `missing` the claim requires. -/
theorem C5_observation_counterexample :
    compareMappedReads ⟨0, ['A', '*', 'T', 'A'], [40, 40, 40, 40]⟩
        ⟨0, ['A', '*', 'A', 'A'], [40, 40, 40, 40]⟩ ⟨[("AAA", "K")]⟩ 13
      = some ⟨0, [some 1]⟩
    ∧ codonAt ⟨0, ['A', '*', 'T', 'A'], [40, 40, 40, 40]⟩ 2 = "A*T"
    ∧ codonAt ⟨0, ['A', '*', 'A', 'A'], [40, 40, 40, 40]⟩ 2 = "A*A"
    ∧ GeneticCode.lookup? ⟨[("AAA", "K")]⟩ "A*T" = none
    ∧ GeneticCode.lookup? ⟨[("AAA", "K")]⟩ "A*A" = none := by
  decide

/-- C5 (amended): at every evaluated in-bounds position the observation is
missing unless both bases are canonical A/T/G/C, both qualities strictly
exceed the minimum, and the genetic-code-table lookups of the two codons —
Go map lookups, returning the zero value `""` for an absent codon — are
equal; when all three hold it is `1` if the bases differ and `0` otherwise. -/
theorem C5_observation_amended (a b : MappedRead) (tbl : GeneticCode) (minbq : ℤ)
    (j : ℕ)
    (h2 : 2 ≤ (j : ℤ) + (b.Pos - a.Pos))
    (hia : (j : ℤ) + (b.Pos - a.Pos) < (a.Seq.length : ℤ))
    (hja : 2 ≤ j)
    (hjb : (j : ℤ) < (b.Seq.length : ℤ))
    (hqa : (j : ℤ) + (b.Pos - a.Pos) < (a.Qual.length : ℤ))
    (hqb : (j : ℤ) < (b.Qual.length : ℤ)) :
    obsAt a b tbl minbq j =
      some (if isATGC (seqAt a ((j : ℤ) + (b.Pos - a.Pos))) = true
               ∧ isATGC (seqAt b (j : ℤ)) = true
               ∧ minbq < (qualAt a ((j : ℤ) + (b.Pos - a.Pos)) : ℤ)
               ∧ minbq < (qualAt b (j : ℤ) : ℤ)
               ∧ tbl.lookupGo (codonAt a ((j : ℤ) + (b.Pos - a.Pos)))
                   = tbl.lookupGo (codonAt b (j : ℤ))
            then some (if seqAt a ((j : ℤ) + (b.Pos - a.Pos)) ≠ seqAt b (j : ℤ)
                       then 1 else 0)
            else none) :=
  obsAt_characterization a b tbl minbq j h2 hia hja hjb hqa hqb

/-- C5 witness: the amended theorem instantiated at a concrete evaluated
position (two canonical, high-quality, synonymous reads with equal bases,
observation `0`). -/
theorem C5_observation_amended_witness :
    obsAt ⟨0, ['A', 'A', 'A'], [40, 40, 40]⟩ ⟨0, ['A', 'A', 'A'], [40, 40, 40]⟩
        ⟨[("AAA", "K")]⟩ 13 2 = some (some 0) := by
  have h := C5_observation_amended ⟨0, ['A', 'A', 'A'], [40, 40, 40]⟩
    ⟨0, ['A', 'A', 'A'], [40, 40, 40]⟩ ⟨[("AAA", "K")]⟩ 13 2
    (by decide) (by decide) (by decide) (by decide) (by decide) (by decide)
  rw [h]
  decide

/-- C3 counterexample: a codon absent from the genetic-code table in *both*
reads does not produce a missing observation: the two Go map lookups both
return the zero value and compare equal, so the code records `0` here
(equal bases), contradicting the claim that absence always yields missing. -/
theorem C3_absent_codon_counterexample :
    compareMappedReads ⟨0, ['A', '*', 'A', 'A'], [40, 40, 40, 40]⟩
        ⟨0, ['A', '*', 'A', 'A'], [40, 40, 40, 40]⟩ ⟨[("AAA", "K")]⟩ 13
      = some ⟨0, [some 0]⟩
    ∧ GeneticCode.lookup?  ⟨[("AAA", "K")]⟩
        (codonAt ⟨0, ['A', '*', 'A', 'A'], [40, 40, 40, 40]⟩ 2) = none := by
  decide

/-- C3 (amended): when the codon is absent from the table in exactly one of
the two reads (and the other codon's amino-acid symbol is non-empty, as in
any real genetic-code table), the observation is missing and no error is
raised (the loop returns a value, `some none`, rather than panicking); if
both codons are absent the lookups agree on the zero value and the
observation is `0`/`1` as if synonymous (see the counterexample). -/
theorem C3_absent_codon_amended (a b : MappedRead) (tbl : GeneticCode) (minbq : ℤ)
    (j : ℕ)
    (h2 : 2 ≤ (j : ℤ) + (b.Pos - a.Pos))
    (hia : (j : ℤ) + (b.Pos - a.Pos) < (a.Seq.length : ℤ))
    (hja : 2 ≤ j)
    (hjb : (j : ℤ) < (b.Seq.length : ℤ))
    (hqa : (j : ℤ) + (b.Pos - a.Pos) < (a.Qual.length : ℤ))
    (hqb : (j : ℤ) < (b.Qual.length : ℤ))
    (habsent :
      (tbl.lookup? (codonAt a ((j : ℤ) + (b.Pos - a.Pos))) = none
        ∧ ∃ aa, tbl.lookup? (codonAt b (j : ℤ)) = some aa ∧ aa ≠ "")
      ∨ (tbl.lookup? (codonAt b (j : ℤ)) = none
        ∧ ∃ aa, tbl.lookup? (codonAt a ((j : ℤ) + (b.Pos - a.Pos))) = some aa ∧ aa ≠ "")) :
    obsAt a b tbl minbq j = some none := by
  rw [obsAt_characterization a b tbl minbq j h2 hia hja hjb hqa hqb]
  have hne : ¬ (tbl.lookupGo (codonAt a ((j : ℤ) + (b.Pos - a.Pos)))
      = tbl.lookupGo (codonAt b (j : ℤ))) := by
    rcases habsent with ⟨hn, aa, hs, hne⟩ | ⟨hn, aa, hs, hne⟩
    · simp only [GeneticCode.lookupGo, hn, hs, Option.getD_none, Option.getD_some]
      exact fun h => hne h.symm
    · simp only [GeneticCode.lookupGo, hn, hs, Option.getD_none, Option.getD_some]
      exact hne
  rw [if_neg]
  exact fun h => hne h.2.2.2.2

/-- C3 witness: the amended theorem at a concrete input — codon `A*A` absent
in read `a`, codon `AAA` present (symbol `K`) in read `b`, observation
missing. -/
theorem C3_absent_codon_amended_witness :
    obsAt ⟨0, ['A', '*', 'A'], [40, 40, 40]⟩ ⟨0, ['A', 'A', 'A'], [40, 40, 40]⟩
        ⟨[("AAA", "K")]⟩ 13 2 = some none :=
  C3_absent_codon_amended ⟨0, ['A', '*', 'A'], [40, 40, 40]⟩
    ⟨0, ['A', 'A', 'A'], [40, 40, 40]⟩ ⟨[("AAA", "K")]⟩ 13 2
    (by decide) (by decide) (by decide) (by decide) (by decide) (by decide)
    (Or.inl ⟨by decide, "K", by decide, by decide⟩)

/-- C2: evaluation of the Window Pairer at the failing input.  The two reads
are position-sorted and their spans overlap (`b.Pos ≤ a.Pos + a.Len`), so the
claim requires the pair `(a, b)` to be emitted exactly once — but the code
emits nothing: `slideReads` only sends a window when a newly arrived read
starts beyond the head's span, and the final window is discarded when the
record stream ends, so its pairs are never compared. -/
theorem C2_window_pairer_drops_final_window :
    emittedPairs [⟨0, ['A', 'A', 'A', 'A'], [40, 40, 40, 40]⟩,
                  ⟨2, ['A', 'A', 'A', 'A'], [40, 40, 40, 40]⟩] = []
    ∧ (⟨0, ['A', 'A', 'A', 'A'], [40, 40, 40, 40]⟩ : MappedRead).Pos
        ≤ (⟨2, ['A', 'A', 'A', 'A'], [40, 40, 40, 40]⟩ : MappedRead).Pos
    ∧ (⟨2, ['A', 'A', 'A', 'A'], [40, 40, 40, 40]⟩ : MappedRead).Pos
        ≤ (⟨0, ['A', 'A', 'A', 'A'], [40, 40, 40, 40]⟩ : MappedRead).Pos
          + (⟨0, ['A', 'A', 'A', 'A'], [40, 40, 40, 40]⟩ : MappedRead).Len := by
  decide

/-- C1 counterexample: a compared pair whose profile has two non-missing
entries at reference positions 2 and 5 — genomic distance 3, well below
`maxLag = 10` — yet `calc` puts their cross increment into bucket 1 (the
profile-index difference) and bucket 3 stays at zero samples, refuting the
claim that the bucket index is the distance in reference coordinates.
(Bucket 0 holds the two diagonal increments.) -/
theorem C1_lag_unit_counterexample :
    compareMappedReads ⟨0, ['A', 'A', 'A', 'A', 'A', 'A'], [40, 40, 40, 40, 40, 40]⟩
        ⟨0, ['A', 'A', 'T', 'A', 'A', 'A'], [40, 40, 40, 40, 40, 40]⟩
        ⟨[("AAA", "K"), ("AAT", "K")]⟩ 13
      = some ⟨0, [some 1, some 0]⟩
    ∧ evalPositions ⟨0, ['A', 'A', 'A', 'A', 'A', 'A'], [40, 40, 40, 40, 40, 40]⟩
        ⟨0, ['A', 'A', 'T', 'A', 'A', 'A'], [40, 40, 40, 40, 40, 40]⟩ = [2, 5]
    ∧ (calcCovs [⟨0, [some 1, some 0]⟩] 10).map BivCov.n
        = [2, 1, 0, 0, 0, 0, 0, 0, 0, 0] := by
  decide

/-- C4: the comparator evaluates exactly the offsets `j` with
`j + lag < a.Len`, `j < b.Len`, `(j + b.Pos + 1) % 3 == 0` and `j > 1`
(first conjunct), each exactly once and in strictly increasing
reference-position order (second conjunct, which gives `Nodup`), and the
profile carries the anchor `b.Pos` and exactly one entry per evaluated
offset in that same order, whatever the entry's value (last two conjuncts). -/
theorem C4_evaluated_offsets (a b : MappedRead) (tbl : GeneticCode) (minbq : ℤ)
    (sp : SubProfile) (hab : a.Pos ≤ b.Pos)
    (h : compareMappedReads a b tbl minbq = some sp) :
    (∀ j : ℕ, j ∈ evalOffsets a b ↔
        ((j : ℤ) + (b.Pos - a.Pos) < a.Len ∧ (j : ℤ) < b.Len
          ∧ ((j : ℤ) + b.Pos + 1).tmod 3 = 0 ∧ 1 < j))
    ∧ (evalPositions a b).Pairwise (· < ·)
    ∧ sp.Pos = b.Pos
    ∧ sp.Profile.length = (evalOffsets a b).length
    ∧ (∀ k : ℕ, sp.Profile[k]? = ((evalOffsets a b)[k]?).bind (obsAt a b tbl minbq)) := by
  obtain ⟨subs, hsubs, heq⟩ := Option.map_eq_some'.mp h
  refine ⟨fun j => mem_evalOffsets, ?_, ?_, ?_, ?_⟩
  · have hpr : (List.range (evalLimit a b)).Pairwise (· < ·) := List.pairwise_lt_range _
    have hpf : (evalOffsets a b).Pairwise (· < ·) :=
      List.Pairwise.sublist (List.filter_sublist _) hpr
    unfold evalPositions
    refine List.Pairwise.map (fun j : ℕ => (j : ℤ) + b.Pos) (fun x y hxy => ?_) hpf
    show (x : ℤ) + b.Pos < (y : ℤ) + b.Pos
    omega
  · rw [← heq]
  · rw [← heq]
    exact (optMapM_length _ hsubs).symm ▸ rfl
  · intro k
    rw [← heq]
    exact optMapM_getElem? _ hsubs k

/-- C4 witness: the theorem instantiated at a concrete overlapping pair (one
evaluated offset, `j = 2`). -/
theorem C4_evaluated_offsets_witness :
    (∀ j : ℕ, j ∈ evalOffsets ⟨0, ['A', 'A', 'A'], [40, 40, 40]⟩
          ⟨0, ['A', 'A', 'A'], [40, 40, 40]⟩ ↔
        ((j : ℤ) + ((0 : ℤ) - (0 : ℤ)) < (⟨0, ['A', 'A', 'A'], [40, 40, 40]⟩ : MappedRead).Len
          ∧ (j : ℤ) < (⟨0, ['A', 'A', 'A'], [40, 40, 40]⟩ : MappedRead).Len
          ∧ ((j : ℤ) + (0 : ℤ) + 1).tmod 3 = 0 ∧ 1 < j))
    ∧ (evalPositions ⟨0, ['A', 'A', 'A'], [40, 40, 40]⟩
        ⟨0, ['A', 'A', 'A'], [40, 40, 40]⟩).Pairwise (· < ·)
    ∧ (⟨0, [some 0]⟩ : SubProfile).Pos = (0 : ℤ)
    ∧ (⟨0, [some 0]⟩ : SubProfile).Profile.length
        = (evalOffsets ⟨0, ['A', 'A', 'A'], [40, 40, 40]⟩
            ⟨0, ['A', 'A', 'A'], [40, 40, 40]⟩).length
    ∧ (∀ k : ℕ, (⟨0, [some 0]⟩ : SubProfile).Profile[k]?
        = ((evalOffsets ⟨0, ['A', 'A', 'A'], [40, 40, 40]⟩
              ⟨0, ['A', 'A', 'A'], [40, 40, 40]⟩)[k]?).bind
            (obsAt ⟨0, ['A', 'A', 'A'], [40, 40, 40]⟩
              ⟨0, ['A', 'A', 'A'], [40, 40, 40]⟩ ⟨[("AAA", "K")]⟩ 13)) :=
  C4_evaluated_offsets ⟨0, ['A', 'A', 'A'], [40, 40, 40]⟩
    ⟨0, ['A', 'A', 'A'], [40, 40, 40]⟩ ⟨[("AAA", "K")]⟩ 13 ⟨0, [some 0]⟩
    (by decide) (by decide)

theorem map2RefGo_characterization :
    ∀ (cigar : List CigarOp) (read : List Char) (qual : List ℕ) (p : ℕ)
      (s : List Char) (q : List ℕ),
      map2RefGo read qual p cigar = some (s, q) →
      s = ((opsWithOffsets p cigar).map (fun pc => opBases read pc.1 pc.2)).flatten
      ∧ q = ((opsWithOffsets p cigar).map (fun pc => opQuals qual pc.1 pc.2)).flatten
      ∧ s.length = q.length := by
  intro cigar
  induction cigar with
  | nil =>
    intro read qual p s q h
    simp only [map2RefGo, Option.some.injEq, Prod.mk.injEq] at h
    obtain ⟨hs, hq⟩ := h
    subst hs; subst hq
    simp [opsWithOffsets]
  | cons c cs ih =>
    intro read qual p s q h
    obtain ⟨ty, len⟩ := c
    cases ty
    case cigarMatch | cigarMismatch | cigarEqual =>
      simp only [map2RefGo] at h
      by_cases hb : p + len ≤ read.length ∧ p + len ≤ qual.length
      · rw [if_pos hb] at h
        obtain ⟨⟨s', q'⟩, hrec, heq⟩ := Option.map_eq_some'.mp h
        obtain ⟨hs', hq', hlen'⟩ := ih read qual (p + len) s' q' hrec
        obtain ⟨heqs, heqq⟩ := Prod.mk.injEq .. ▸ heq
        subst heqs; subst heqq
        refine ⟨?_, ?_, ?_⟩
        · simp [opsWithOffsets, readConsume, opBases, hs']
        · simp [opsWithOffsets, readConsume, opQuals, hq']
        · simp only [List.length_append, hlen', seg, List.length_take,
            List.length_drop]
          omega
      · rw [if_neg hb] at h
        exact absurd h (by simp)
    case cigarInsertion | cigarSoftClipped | cigarHardClipped =>
      simp only [map2RefGo] at h
      obtain ⟨hs', hq', hlen'⟩ := ih read qual (p + len) s q h
      refine ⟨?_, ?_, hlen'⟩
      · simp [opsWithOffsets, readConsume, opBases, hs']
      · simp [opsWithOffsets, readConsume, opQuals, hq']
    case cigarDeletion | cigarSkipped =>
      simp only [map2RefGo] at h
      obtain ⟨⟨s', q'⟩, hrec, heq⟩ := Option.map_eq_some'.mp h
      obtain ⟨hs', hq', hlen'⟩ := ih read qual p s' q' hrec
      obtain ⟨heqs, heqq⟩ := Prod.mk.injEq .. ▸ heq
      subst heqs; subst heqq
      refine ⟨?_, ?_, ?_⟩
      · simp [opsWithOffsets, readConsume, opBases, hs']
      · simp [opsWithOffsets, readConsume, opQuals, hq']
      · simp [hlen']

/-- C7: whenever the CIGAR projection completes without a Go slice panic, the
returned base and quality sequences have equal length, the bases are — in
CIGAR order, with each operation reading at its accumulated read offset —
the verbatim read segments for match/mismatch/equal, nothing for
insertion/soft/hard-clip, and one `*` placeholder per reference position for
deletion/skip, normalized to uppercase at the end; the qualities follow the
same layout with verbatim segments and a `0` sentinel per deleted/skipped
position. -/
theorem C7_projection (r : SamRec) (s : List Char) (q : List ℕ)
    (h : Map2Ref r = some (s, q)) :
    s.length = q.length
    ∧ s = (emittedBases r.Seq r.Cigar).map Char.toUpper
    ∧ q = emittedQuals r.Qual r.Cigar := by
  rw [Map2Ref] at h
  obtain ⟨⟨s0, q0⟩, h0, heq⟩ := Option.map_eq_some'.mp h
  obtain ⟨hs0, hq0, hlen⟩ := map2RefGo_characterization r.Cigar r.Seq r.Qual 0 s0 q0 h0
  obtain ⟨heqs, heqq⟩ := Prod.mk.injEq .. ▸ heq
  subst heqs; subst heqq
  refine ⟨by simp [hlen], ?_, ?_⟩
  · rw [emittedBases, ← hs0]
  · rw [emittedQuals, ← hq0]

/-- C7 witness: the theorem at a concrete record
(CIGAR `2M 1I 2D 1M`, read `acgt`): bases `AC**T`, qualities
`[10,20,0,0,40]`. -/
theorem C7_projection_witness :
    (['A', 'C', '*', '*', 'T'] : List Char).length = ([10, 20, 0, 0, 40] : List ℕ).length
    ∧ (['A', 'C', '*', '*', 'T'] : List Char)
        = (emittedBases ['a', 'c', 'g', 't']
            [⟨.cigarMatch, 2⟩, ⟨.cigarInsertion, 1⟩, ⟨.cigarDeletion, 2⟩,
             ⟨.cigarMatch, 1⟩]).map Char.toUpper
    ∧ ([10, 20, 0, 0, 40] : List ℕ)
        = emittedQuals [10, 20, 30, 40]
            [⟨.cigarMatch, 2⟩, ⟨.cigarInsertion, 1⟩, ⟨.cigarDeletion, 2⟩,
             ⟨.cigarMatch, 1⟩] :=
  C7_projection ⟨0, [⟨.cigarMatch, 2⟩, ⟨.cigarInsertion, 1⟩, ⟨.cigarDeletion, 2⟩,
      ⟨.cigarMatch, 1⟩], ['a', 'c', 'g', 't'], [10, 20, 30, 40]⟩
    ['A', 'C', '*', '*', 'T'] [10, 20, 0, 0, 40] (by decide)

theorem MeanVar.increment_comm (mv : MeanVar) (x y : ℚ) :
    (mv.increment x).increment y = (mv.increment y).increment x := by
  obtain ⟨n, m, s⟩ := mv
  have h1 : ((n : ℚ) + 1) ≠ 0 := by positivity
  have h2 : ((n : ℚ) + 2) ≠ 0 := by positivity
  simp only [MeanVar.increment, MeanVar.mk.injEq]
  refine ⟨trivial, ?_, ?_⟩
  · push_cast
    field_simp
    ring
  · push_cast
    field_simp
    ring

/-- The per-element update performed by `collectBatch`. -/
def mvUpd (mv : MeanVar) (cv : BivCov) : MeanVar :=
  match cv.getResult with
  | some v => mv.increment v
  | none => mv

theorem mvUpd_comm (mv : MeanVar) (c1 c2 : BivCov) :
    mvUpd (mvUpd mv c1) c2 = mvUpd (mvUpd mv c2) c1 := by
  rw [mvUpd, mvUpd, mvUpd, mvUpd]
  cases c1.getResult <;> cases c2.getResult <;>
    simp [MeanVar.increment_comm]

theorem collectBatch_length :
    ∀ (mvs : List MeanVar) (cvs : List BivCov),
      (collectBatch mvs cvs).length = mvs.length := by
  intro mvs
  induction mvs with
  | nil => intro cvs; cases cvs <;> simp [collectBatch]
  | cons mv mvs ih =>
    intro cvs
    cases cvs with
    | nil => simp [collectBatch]
    | cons c cs => simp [collectBatch, ih]

theorem collectBatch_comm (mvs : List MeanVar) :
    ∀ (b1 b2 : List BivCov),
      collectBatch (collectBatch mvs b1) b2 = collectBatch (collectBatch mvs b2) b1 := by
  induction mvs with
  | nil =>
    intro b1 b2
    cases b1 <;> cases b2 <;> simp [collectBatch]
  | cons mv mvs ih =>
    intro b1 b2
    cases b1 with
    | nil =>
      cases b2 <;> simp [collectBatch]
    | cons c1 cs1 =>
      cases b2 with
      | nil => simp [collectBatch]
      | cons c2 cs2 =>
        simp only [collectBatch]
        refine congrArg₂ _ ?_ (ih cs1 cs2)
        have := mvUpd_comm mv c1 c2
        simpa [mvUpd] using this

theorem foldl_perm_of_comm {α β : Type} {f : β → α → β}
    (H : ∀ (x : β) (a b : α), f (f x a) b = f (f x b) a)
    {l1 l2 : List α} (p : l1.Perm l2) : ∀ x : β, l1.foldl f x = l2.foldl f x := by
  induction p with
  | nil => intro x; rfl
  | cons a _ ih => intro x; simp only [List.foldl_cons]; exact ih _
  | swap a b l => intro x; simp only [List.foldl_cons]; rw [H]
  | trans _ _ ih1 ih2 => intro x; rw [ih1 x, ih2 x]

/-- C6: the final per-lag mean and variance values produced by `collect` are
invariant under any permutation of the order in which the per-batch per-lag
covariance result arrays are delivered (the hypothesis that every batch has
exactly `maxl` entries matches the arrays the workers produce; in Go a longer
batch would panic at `meanVars[i]`). -/
theorem C6_order_independence (maxl : ℕ) (bs bs' : List (List BivCov))
    (hp : bs.Perm bs') (hlen : ∀ b ∈ bs, b.length = maxl) :
    (collect bs maxl).map (fun mv => (mv.meanRes, mv.varRes))
      = (collect bs' maxl).map (fun mv => (mv.meanRes, mv.varRes)) := by
  have : collect bs maxl = collect bs' maxl :=
    foldl_perm_of_comm (fun mvs b1 b2 => collectBatch_comm mvs b1 b2) hp _
  rw [this]

/-- C6 witness: two concrete single-lag batch results delivered in the two
possible orders. -/
theorem C6_order_independence_witness :
    (collect [[⟨1, 1, 0, 3⟩], [⟨2, 0, 1, 5⟩]] 1).map (fun mv => (mv.meanRes, mv.varRes))
      = (collect [[⟨2, 0, 1, 5⟩], [⟨1, 1, 0, 3⟩]] 1).map (fun mv => (mv.meanRes, mv.varRes)) :=
  C6_order_independence 1 [[⟨1, 1, 0, 3⟩], [⟨2, 0, 1, 5⟩]]
    [[⟨2, 0, 1, 5⟩], [⟨1, 1, 0, 3⟩]]
    (List.Perm.swap _ _ _) (by decide)

theorem collectBatch_getElem :
    ∀ (mvs : List MeanVar) (cvs : List BivCov) (i : ℕ),
      (collectBatch mvs cvs)[i]? =
        (mvs[i]?).map (fun mv =>
          match (cvs[i]?).bind BivCov.getResult with
          | some v => mv.increment v
          | none => mv) := by
  intro mvs
  induction mvs with
  | nil =>
    intro cvs i
    cases cvs <;> simp [collectBatch]
  | cons mv mvs ih =>
    intro cvs i
    cases cvs with
    | nil =>
      cases i <;> simp [collectBatch]
    | cons c cs =>
      cases i with
      | zero => simp [collectBatch]
      | succ i => simp [collectBatch, ih cs i]

theorem collect_foldl_characterization (maxl : ℕ) :
    ∀ (bs : List (List BivCov)) (g : ℕ → MeanVar),
      bs.foldl collectBatch ((List.range maxl).map g)
        = (List.range maxl).map
            (fun i => (valuesAt i bs).foldl MeanVar.increment (g i)) := by
  intro bs
  induction bs with
  | nil => intro g; simp [valuesAt]
  | cons b bs ih =>
    intro g
    simp only [List.foldl_cons]
    have hstep : collectBatch ((List.range maxl).map g) b
        = (List.range maxl).map (fun i =>
            match (b[i]?).bind BivCov.getResult with
            | some v => (g i).increment v
            | none => g i) := by
      apply List.ext_getElem?
      intro n
      rw [collectBatch_getElem]
      by_cases hn : n < maxl
      · rw [List.getElem?_map, List.getElem?_map, List.getElem?_range hn]
        rfl
      · have hr : (List.range maxl)[n]? = none :=
          List.getElem?_eq_none (by simpa using Nat.le_of_not_lt hn)
        rw [List.getElem?_map, List.getElem?_map, hr]
        rfl
    rw [hstep, ih (fun i =>
      match (b[i]?).bind BivCov.getResult with
      | some v => (g i).increment v
      | none => g i)]
    have hpt : ∀ i : ℕ,
        (valuesAt i (b :: bs)).foldl MeanVar.increment (g i)
          = (valuesAt i bs).foldl MeanVar.increment
              (match (b[i]?).bind BivCov.getResult with
               | some v => (g i).increment v
               | none => g i) := by
      intro i
      rw [valuesAt, List.filterMap_cons, valuesAt]
      cases hv : (b[i]?).bind BivCov.getResult <;> simp [hv]
    simp only [hpt]

/-- C8: `collect` folds, into the accumulator of each lag `i < maxl`, exactly
the non-NaN per-batch covariance scalars `covs[i].GetResult()` in delivery
order — each exactly once — and skips the NaN ones (`valuesAt` filters them
out); and the NaN sentinel occurs exactly when the lag bucket received zero
samples (`n = 0`). -/
theorem C8_nan_exclusion :
    (∀ (batches : List (List BivCov)) (maxl : ℕ),
        collect batches maxl
          = (List.range maxl).map
              (fun i => (valuesAt i batches).foldl MeanVar.increment MeanVar.init))
    ∧ (∀ cv : BivCov, cv.getResult = none ↔ cv.n = 0) := by
  constructor
  · intro batches maxl
    rw [collect]
    have hrep : List.replicate maxl MeanVar.init
        = (List.range maxl).map (fun _ => MeanVar.init) := by
      rw [List.map_const', List.length_range]
    rw [hrep, collect_foldl_characterization]
  · intro cv
    rw [BivCov.getResult]
    by_cases h : cv.n = 0 <;> simp [h]

theorem writeGo_length :
    ∀ (mvs : List MeanVar) (i : ℕ) (ks : Option ℚ),
      (writeGo i ks mvs).length = mvs.length := by
  intro mvs
  induction mvs with
  | nil => intro i ks; rfl
  | cons mv rest ih =>
    intro i ks
    rw [writeGo]
    by_cases hi : i = 0
    · rw [if_pos hi]
      simp [ih]
    · rw [if_neg hi]
      simp [ih]

theorem foldl_collectBatch_length :
    ∀ (bs : List (List BivCov)) (mvs : List MeanVar),
      (bs.foldl collectBatch mvs).length = mvs.length := by
  intro bs
  induction bs with
  | nil => intro mvs; rfl
  | cons b bs ih => intro mvs; rw [List.foldl_cons, ih, collectBatch_length]

theorem collect_length (batches : List (List BivCov)) (maxl : ℕ) :
    (collect batches maxl).length = maxl := by
  rw [collect, foldl_collectBatch_length, List.length_replicate]

theorem writeGo_tail :
    ∀ (rest : List MeanVar) (i : ℕ) (ks : Option ℚ), i ≠ 0 →
      ∀ k : ℕ, (writeGo i ks rest)[k]? =
        (rest[k]?).map (fun mv =>
          { l := i + k, m := divOpt mv.meanRes ks, v := mv.varRes,
            n := mv.n, t := "P2" }) := by
  intro rest
  induction rest with
  | nil => intro i ks _ k; simp [writeGo]
  | cons mv rest ih =>
    intro i ks hi k
    rw [writeGo, if_neg hi]
    cases k with
    | zero => simp
    | succ k =>
      have harith : i + 1 + k = i + (k + 1) := by omega
      simp only [List.getElem?_cons_succ, ih (i + 1) ks (by omega) k, harith]

/-- The lag-0 aggregated mean, as `write`'s `ks` variable captures it:
`meanVars[0].Mean.GetResult()` (irrelevant default when the list is empty,
in which case no row is written). -/
def ksOf (mvs : List MeanVar) : Option ℚ :=
  match mvs with
  | [] => some 0
  | mv :: _ => mv.meanRes

/-- C9: the output has one row per lag index `k` carrying the lag, mean,
variance, sample count and label; the label is `"Ks"` at lag 0 and `"P2"`
elsewhere; the lag-0 mean is reported undivided while every other row's mean
is the aggregated mean for that lag divided (at output time, the aggregator
state being untouched) by the lag-0 aggregated mean; and for aggregator
state produced by `collect` there are exactly `maxl` rows, one per lag in
`[0, maxl)`. -/
theorem C9_output_rows :
    (∀ (mvs : List MeanVar) (k : ℕ),
        (writeRows mvs)[k]? = (mvs[k]?).map (fun mv =>
          { l := k,
            m := if k = 0 then mv.meanRes else divOpt mv.meanRes (ksOf mvs),
            v := mv.varRes, n := mv.n,
            t := if k = 0 then "Ks" else "P2" }))
    ∧ (∀ (batches : List (List BivCov)) (maxl : ℕ),
        (writeRows (collect batches maxl)).length = maxl) := by
  constructor
  · intro mvs k
    cases mvs with
    | nil => simp [writeRows, writeGo]
    | cons mv0 rest =>
      rw [writeRows, writeGo, if_pos rfl]
      cases k with
      | zero => simp [ksOf]
      | succ k =>
        have harith : 1 + k = k + 1 := by omega
        simp only [List.getElem?_cons_succ,
          writeGo_tail rest 1 mv0.meanRes (by omega) k, harith, ksOf]
        simp
  · intro batches maxl
    rw [writeRows, writeGo_length, collect_length]

/-- The sample count of lag bucket `l` (0 when the bucket does not exist). -/
def nAt (covs : List BivCov) (l : ℕ) : ℕ :=
  ((covs[l]?).map BivCov.n).getD 0

/-- Whether profile entry `k` exists and is non-missing. -/
def entrySome (sp : SubProfile) (k : ℕ) : Bool :=
  ((sp.Profile[k]?).bind id).isSome

theorem calcUpd_length (sp : SubProfile) (x : ℚ) (i : ℕ) (cvs : List BivCov)
    (l : ℕ) : (calcUpd sp x i cvs l).length = cvs.length := by
  rw [calcUpd]
  cases hv : sp.Profile[i + l]? with
  | none => rfl
  | some o => cases o <;> simp

theorem calcUpd_nAt (sp : SubProfile) (x : ℚ) (i : ℕ) (cvs : List BivCov)
    (l l' : ℕ) :
    nAt (calcUpd sp x i cvs l) l'
      = nAt cvs l' + (if l' = l ∧ l < cvs.length ∧ entrySome sp (i + l)
                      then 1 else 0) := by
  rw [calcUpd]
  cases hv : sp.Profile[i + l]? with
  | none => simp [entrySome, hv]
  | some o =>
    cases o with
    | none => simp [entrySome, hv]
    | some y =>
      by_cases hll : l' = l
      · subst hll
        by_cases hlt : l' < cvs.length
        · have hget : cvs[l']? = some cvs[l'] := List.getElem?_eq_getElem hlt
          rw [nAt, List.getElem?_set]
          simp only [if_pos rfl, if_pos hlt]
          simp [entrySome, hv, nAt, hget, hlt, List.getD_eq_getElem?_getD,
            BivCov.increment]
        · rw [nAt, List.getElem?_set]
          simp only [if_pos rfl, if_neg hlt]
          have hnone : cvs[l']? = none :=
            List.getElem?_eq_none (Nat.le_of_not_lt hlt)
          simp [hlt, nAt, hnone]
      · rw [nAt, List.getElem?_set, if_neg (fun h => hll h.symm)]
        simp [hll, nAt]

theorem foldl_calcUpd_length (sp : SubProfile) (x : ℚ) (i : ℕ) :
    ∀ (js : List ℕ) (cvs : List BivCov),
      (js.foldl (calcUpd sp x i) cvs).length = cvs.length := by
  intro js
  induction js with
  | nil => intro cvs; rfl
  | cons j js ih => intro cvs; rw [List.foldl_cons, ih, calcUpd_length]

theorem foldl_range_calcUpd_nAt (sp : SubProfile) (x : ℚ) (i : ℕ) :
    ∀ (m : ℕ) (cvs : List BivCov), m ≤ cvs.length → ∀ l : ℕ,
      nAt ((List.range m).foldl (calcUpd sp x i) cvs) l
        = nAt cvs l + (if l < m ∧ entrySome sp (i + l) then 1 else 0) := by
  intro m
  induction m with
  | zero => intro cvs _ l; simp
  | succ m ih =>
    intro cvs hm l
    rw [List.range_succ, List.foldl_append, List.foldl_cons, List.foldl_nil]
    have hFlen : ((List.range m).foldl (calcUpd sp x i) cvs).length = cvs.length :=
      foldl_calcUpd_length sp x i _ cvs
    rw [calcUpd_nAt, ih cvs (by omega) l, hFlen]
    by_cases hlm : l = m
    · subst hlm
      have h1 : ¬ l < l := by omega
      have h2 : l < cvs.length := by omega
      have h3 : l < l + 1 := by omega
      by_cases hs : entrySome sp (i + l) <;> simp [h1, h2, h3, hs]
    · by_cases hlt : l < m
      · have h4 : l < m + 1 := by omega
        by_cases hs : entrySome sp (i + l) <;> simp [hlm, hlt, h4, hs]
      · have h5 : ¬ l < m + 1 := by omega
        simp [hlm, hlt, h5]

theorem calcInner_length (sp : SubProfile) (x : ℚ) (i : ℕ) (covs : List BivCov) :
    (calcInner sp x i covs).length = covs.length := by
  rw [calcInner, foldl_calcUpd_length]

theorem calcInner_nAt (sp : SubProfile) (x : ℚ) (i : ℕ) (covs : List BivCov)
    (l : ℕ) :
    nAt (calcInner sp x i covs) l
      = nAt covs l
        + (if l < min (sp.Profile.length - i) covs.length ∧ entrySome sp (i + l)
           then 1 else 0) := by
  rw [calcInner, foldl_range_calcUpd_nAt sp x i _ covs (by omega) l]

theorem calcOuterUpd_length (sp : SubProfile) (cvs : List BivCov) (i : ℕ) :
    (calcOuterUpd sp cvs i).length = cvs.length := by
  rw [calcOuterUpd]
  cases hv : sp.Profile[i]? with
  | none => rfl
  | some o => cases o <;> simp [calcInner_length]

theorem calcOuterUpd_nAt (sp : SubProfile) (cvs : List BivCov) (i l : ℕ) :
    nAt (calcOuterUpd sp cvs i) l
      = nAt cvs l
        + (if entrySome sp i
              ∧ l < min (sp.Profile.length - i) cvs.length
              ∧ entrySome sp (i + l)
           then 1 else 0) := by
  rw [calcOuterUpd]
  cases hv : sp.Profile[i]? with
  | none => simp [entrySome, hv]
  | some o =>
    cases o with
    | none => simp [entrySome, hv]
    | some y =>
      rw [calcInner_nAt]
      have hsome : entrySome sp i = true := by simp [entrySome, hv]
      simp [hsome]

theorem foldl_calcOuterUpd_nAt (sp : SubProfile) :
    ∀ (m : ℕ) (cvs : List BivCov) (l : ℕ),
      nAt ((List.range m).foldl (calcOuterUpd sp) cvs) l
        = nAt cvs l
          + (List.range m).countP
              (fun i => entrySome sp i
                && (decide (l < min (sp.Profile.length - i) cvs.length)
                    && entrySome sp (i + l))) := by
  intro m
  induction m with
  | zero => intro cvs l; simp
  | succ m ih =>
    intro cvs l
    rw [List.range_succ, List.foldl_append, List.foldl_cons, List.foldl_nil]
    have hFlen : ((List.range m).foldl (calcOuterUpd sp) cvs).length = cvs.length := by
      clear ih
      induction (List.range m) generalizing cvs with
      | nil => rfl
      | cons j js ihs => rw [List.foldl_cons, ihs, calcOuterUpd_length]
    rw [calcOuterUpd_nAt, hFlen, ih cvs l, List.countP_append]
    simp only [List.countP_cons, List.countP_nil, Nat.zero_add]
    by_cases hc : entrySome sp m
        ∧ l < min (sp.Profile.length - m) cvs.length ∧ entrySome sp (m + l)
    · rw [if_pos hc]
      have : (entrySome sp m
          && (decide (l < min (sp.Profile.length - m) cvs.length)
              && entrySome sp (m + l))) = true := by
        simp [hc.1, hc.2.1, hc.2.2]
      rw [this]
      simp
      omega
    · rw [if_neg hc]
      have : (entrySome sp m
          && (decide (l < min (sp.Profile.length - m) cvs.length)
              && entrySome sp (m + l))) = false := by
        by_cases h1 : entrySome sp m
        · by_cases h2 : l < min (sp.Profile.length - m) cvs.length
          · by_cases h3 : entrySome sp (m + l)
            · exact absurd ⟨h1, h2, h3⟩ hc
            · simp [h3]
          · simp [h2]
        · simp [h1]
      rw [this]
      simp

/-- The number of entry pairs `(i, i+l)` of a profile, both non-missing: the
pairs the amended C1 says feed lag bucket `l`. -/
def pairCountAt (sp : SubProfile) (l : ℕ) : ℕ :=
  ((List.range sp.Profile.length).filter
    (fun i => entrySome sp i && entrySome sp (i + l))).length

/-- C1 (amended): for a single profile, the sample count accumulated in lag
bucket `l < maxLag` is exactly the number of index pairs `(i, j)` of the
profile with `j - i = l` and both entries non-missing: `calc` buckets by the
*profile-index* difference (the reference-coordinate distance between the two
evaluated positions is three times that, see the counterexample), the
increment happens exactly for index distances below `maxLag`, and the
diagonal `i = j` feeds bucket 0. -/
theorem C1_lag_unit_amended (sp : SubProfile) (maxl l : ℕ) (hl : l < maxl) :
    nAt (calcCovs [sp] maxl) l = pairCountAt sp l := by
  rw [calcCovs, List.foldl_cons, List.foldl_nil, calcStep,
    foldl_calcOuterUpd_nAt]
  have hz : nAt (List.replicate maxl BivCov.new) l = 0 := by
    by_cases hlt : l < maxl
    · rw [nAt, List.getElem?_replicate]
      simp [hlt, BivCov.new]
    · rw [nAt, List.getElem?_eq_none (by simpa using Nat.le_of_not_lt hlt)]
      rfl
  rw [hz, Nat.zero_add, pairCountAt, ← List.countP_eq_length_filter]
  apply List.countP_congr
  intro i _
  rw [List.length_replicate]
  by_cases h3 : entrySome sp (i + l)
  · have hidx : i + l < sp.Profile.length := by
      by_contra hge
      rw [entrySome, List.getElem?_eq_none (by omega)] at h3
      simp at h3
    have hmin : l < min (sp.Profile.length - i) maxl := by omega
    simp [h3, hmin]
  · simp [h3]

/-- C1 witness: the amended theorem at the two-entry profile of the
counterexample, lag bucket 1. -/
theorem C1_lag_unit_amended_witness :
    1 < 10 ∧ nAt (calcCovs [⟨0, [some 1, some 0]⟩] 10) 1
      = pairCountAt ⟨0, [some 1, some 0]⟩ 1 :=
  ⟨by decide, C1_lag_unit_amended ⟨0, [some 1, some 0]⟩ 10 1 (by decide)⟩

end MetaP2
